import Mathlib

/-!
Verification of the sr25519 binding core: byte-level key/signature handling,
single-party Schnorr sign/verify, soft/hard HD derivation, point aggregation
and the multi-party partial-signature routine.  Scalars are natural numbers
reduced modulo the group order `L`; curve points and the transcript hash are
kept abstract behind engine structures mirroring the external curve and
transcript libraries, with their algebraic laws stated separately.
-/

namespace Sr25519

/-! ### Byte-level primitives -/

/-- Order of the curve group (the ed25519/ristretto scalar field modulus). -/
def L : ℕ := 2 ^ 252 + 27742317777372353535851937790883648493

/-- Value of a little-endian byte list. -/
def leVal : List ℕ → ℕ
  | [] => 0
  | b :: bs => b + 256 * leVal bs

/-- The `n`-byte little-endian encoding of a natural number. -/
def toLe : ℕ → ℕ → List ℕ
  | 0, _ => []
  | n + 1, v => v % 256 :: toLe n (v / 256)

/-- Every entry of the list is a byte value. -/
def isBytes (bs : List ℕ) : Prop := ∀ b ∈ bs, b < 256

instance (bs : List ℕ) : Decidable (isBytes bs) := by
  unfold isBytes; infer_instance

/-! ### Transcript model

The transcript engine (merlin, via schnorrkel) is external to the repository;
we model a transcript as the ordered log of its domain-separated operations,
and challenge/witness scalars as abstract functions of that log. -/

/-- One domain-separated operation on the transcript sponge. -/
inductive TranscriptOp where
  | protoName : List ℕ → TranscriptOp
  | commitBytes : List ℕ → List ℕ → TranscriptOp
  | commitPoint : List ℕ → List ℕ → TranscriptOp
deriving DecidableEq

/-- A transcript is the ordered log of operations applied to it. -/
abbrev Transcript := List TranscriptOp

/-- ASCII bytes of a label string. -/
def bytesOfString (s : String) : List ℕ := s.toList.map Char.toNat

/-- The fixed application signing context, `b"substrate"` in the source. -/
def SIGNING_CTX : List ℕ := bytesOfString "substrate"

def protoLabel : List ℕ := bytesOfString "Schnorr-sig"

def pkLabel : List ℕ := bytesOfString "sign:pk"

def RLabel : List ℕ := bytesOfString "sign:R"

def cLabel : List ℕ := bytesOfString "sign:c"

def signingLabel : List ℕ := bytesOfString "signing"

def ctxProtoLabel : List ℕ := bytesOfString "SigningContext"

def signBytesLabel : List ℕ := bytesOfString "sign-bytes"

/-- Modelled from the spec: the external transcript engine, a domain-separated
sponge yielding challenge scalars, and the witness-scalar (nonce) derivation
that the spec describes as deterministically derived from the secret nonce
and the transcript. -/
structure TranscriptEngine where
  challenge_scalar : Transcript → List ℕ → ℕ
  witness_scalar : Transcript → List ℕ → List ℕ → ℕ

/-- The transcript engine returns scalars reduced modulo the group order. -/
structure TranscriptEngine.Lawful (T : TranscriptEngine) : Prop where
  challenge_lt : ∀ t lbl, T.challenge_scalar t lbl < L
  witness_lt : ∀ t lbl seed, T.witness_scalar t lbl seed < L

/-- Modelled from the spec: `signing_context(ctx)` builds a fresh transcript
bound to the fixed application context constant. -/
def signing_context (ctx : List ℕ) : Transcript :=
  [TranscriptOp.protoName ctxProtoLabel, TranscriptOp.commitBytes [] ctx]

/-- Modelled from the spec: `context.bytes(message)` binds the message bytes
to the signing-context transcript. -/
def context_bytes (ctx msg : List ℕ) : Transcript :=
  signing_context ctx ++ [TranscriptOp.commitBytes signBytesLabel msg]

/-! ### Curve engine

The elliptic-curve library is external to the repository; the spec specifies
it as a black box with canonical point encode/decode, point addition and
base-point/point scalar multiplication. -/

/-- Modelled from the spec: the external curve engine interface. -/
structure CurveEngine (α : Type) where
  decode_point : List ℕ → Option α
  encode_point : α → List ℕ
  point_eqb : α → α → Bool
  point_add : α → α → α
  scalar_mul_base : ℕ → α
  scalar_mul_point : ℕ → α → α

/-- The group-law and canonical-encoding facts the spec asserts of the
external curve engine. -/
structure CurveEngine.Lawful {α : Type} (E : CurveEngine α) : Prop where
  decode_encode : ∀ p, E.decode_point (E.encode_point p) = some p
  encode_decode : ∀ bs p, E.decode_point bs = some p → E.encode_point p = bs
  encode_length : ∀ p, (E.encode_point p).length = 32
  encode_isBytes : ∀ p, isBytes (E.encode_point p)
  point_eqb_iff : ∀ p q, E.point_eqb p q = true ↔ p = q
  point_add_comm : ∀ p q, E.point_add p q = E.point_add q p
  point_add_assoc : ∀ p q r, E.point_add (E.point_add p q) r = E.point_add p (E.point_add q r)
  smb_add : ∀ a b, E.scalar_mul_base (a + b) = E.point_add (E.scalar_mul_base a) (E.scalar_mul_base b)
  smb_mod : ∀ a, E.scalar_mul_base (a % L) = E.scalar_mul_base a
  spt_base : ∀ a b, E.scalar_mul_point a (E.scalar_mul_base b) = E.scalar_mul_base (a * b)
  spt_mod : ∀ a p, E.scalar_mul_point (a % L) p = E.scalar_mul_point a p

/-! ### Keys and signatures -/

/-- A decoded expanded secret key: reduced scalar plus opaque nonce bytes. -/
structure SecretKeyV where
  key : ℕ
  nonce : List ℕ
deriving DecidableEq

/-- Modelled from the spec: `SecretKey::from_bytes` — 64 bytes, whose lower
32 bytes must be a canonical (field-reduced) scalar encoding and whose upper
32 bytes are the signing nonce. -/
def secretKey_from_bytes (bs : List ℕ) : Option SecretKeyV :=
  if bs.length = 64 ∧ isBytes bs ∧ leVal (bs.take 32) < L then
    some ⟨leVal (bs.take 32), bs.drop 32⟩
  else none

/-- Modelled from the spec: `Signature::from_bytes` — 64 bytes, first half a
compressed curve point, second half a canonical scalar encoding; a
non-canonical half is a decode error. -/
def signature_from_bytes {α : Type} (E : CurveEngine α) (bs : List ℕ) :
    Option (α × List ℕ × ℕ) :=
  if bs.length = 64 ∧ isBytes bs ∧ leVal (bs.drop 32) < L then
    match E.decode_point (bs.take 32) with
    | none => none
    | some R => some (R, bs.take 32, leVal (bs.drop 32))
  else none

/-! ### Challenge transcripts

Each code path assembles its own challenge transcript; the three builders
below mirror, in order, the operations of `inner_raw_sign` (repository
source), schnorrkel's single-party sign, and schnorrkel's verify. -/

/-- Challenge transcript assembled by `inner_raw_sign` (source lines 346-352):
protocol name, commit public key, commit R. -/
def challenge_transcript_multi (t : Transcript) (pkBytes RBytes : List ℕ) : Transcript :=
  ((t ++ [TranscriptOp.protoName protoLabel])
    ++ [TranscriptOp.commitPoint pkLabel pkBytes])
    ++ [TranscriptOp.commitPoint RLabel RBytes]

/-- Transcript state of single-party sign just before the nonce commitment:
protocol name then public-key commitment. -/
def presign_transcript (t : Transcript) (pkBytes : List ℕ) : Transcript :=
  (t ++ [TranscriptOp.protoName protoLabel]) ++ [TranscriptOp.commitPoint pkLabel pkBytes]

/-- Modelled from the spec: challenge transcript of schnorrkel's single-party
sign — protocol name, commit public key, commit R. -/
def challenge_transcript_sign (t : Transcript) (pkBytes RBytes : List ℕ) : Transcript :=
  presign_transcript t pkBytes ++ [TranscriptOp.commitPoint RLabel RBytes]

/-- Modelled from the spec: challenge transcript recomputed by verify —
protocol name, commit public key, commit R from the signature. -/
def challenge_transcript_verify (t : Transcript) (pkBytes RBytes : List ℕ) : Transcript :=
  ((t ++ [TranscriptOp.protoName protoLabel])
    ++ [TranscriptOp.commitPoint pkLabel pkBytes])
    ++ [TranscriptOp.commitPoint RLabel RBytes]

/-! ### Single-party signing and verification -/

/-- Modelled from the spec: schnorrkel's single-party Schnorr signing core —
commit protocol name and public key, draw the deterministic nonce scalar `r`
from the secret nonce, commit `R = r·B`, derive the challenge `e`, and output
`(R, e·x + r mod L)` serialized as 64 bytes. -/
def sr_sign {α : Type} (E : CurveEngine α) (T : TranscriptEngine)
    (secret : SecretKeyV) (t : Transcript) (pkBytes : List ℕ) : List ℕ :=
  let t2 := presign_transcript t pkBytes
  let r := T.witness_scalar t2 signingLabel secret.nonce
  let Rb := E.encode_point (E.scalar_mul_base r)
  let e := T.challenge_scalar (challenge_transcript_sign t pkBytes Rb) cLabel
  let s := (e * secret.key % L + r) % L
  Rb ++ toLe 32 s

/-- The `sign` entry point of the binding: decode the secret key, decode the
public key, then sign under the fixed `substrate` signing context
(source lines 84-102). -/
def sign {α : Type} (E : CurveEngine α) (T : TranscriptEngine)
    (keypair : List ℕ × List ℕ) (message : List ℕ) : Option (List ℕ) :=
  match secretKey_from_bytes keypair.2 with
  | none => none
  | some secret =>
    match E.decode_point keypair.1 with
    | none => none
    | some _ => some (sr_sign E T secret (context_bytes SIGNING_CTX message) keypair.1)

/-- The `verify` entry point of the binding: decode the signature and the
public key, then check the Schnorr equation against the recomputed challenge
(source lines 122-133; the inner check is modelled from the spec as
`scalar_mul_base s = R + e·P`). -/
def verify {α : Type} (E : CurveEngine α) (T : TranscriptEngine)
    (sigBytes message pkBytes : List ℕ) : Option Bool :=
  match signature_from_bytes E sigBytes with
  | none => none
  | some (R, Rb, s) =>
    match E.decode_point pkBytes with
    | none => none
    | some pk =>
      let e := T.challenge_scalar
        (challenge_transcript_verify (context_bytes SIGNING_CTX message) pkBytes Rb) cLabel
      some (E.point_eqb (E.scalar_mul_base s)
        (E.point_add R (E.scalar_mul_point e pk)))

/-! ### Point aggregation and multi-signing -/

/-- The `sum_public_points` entry point: decode both compressed points, add
them on the curve, re-encode (source lines 273-289). -/
def sum_public_points {α : Type} (E : CurveEngine α) (pk1 pk2 : List ℕ) :
    Option (List ℕ) :=
  match E.decode_point pk1 with
  | none => none
  | some p1 =>
    match E.decode_point pk2 with
    | none => none
    | some p2 => some (E.encode_point (E.point_add p1 p2))

/-- `inner_raw_sign` (source lines 344-378): commit protocol name, public key
and the externally aggregated `R` to the transcript, derive the challenge
`e`, round-trip `e`, the secret scalar and the local nonce scalar through
their 32-byte encodings and `from_bytes_mod_order`, and output the 64 bytes
`R.as_bytes ++ (n1 * n2 + n3).as_bytes`. -/
def inner_raw_sign (T : TranscriptEngine) (secret : SecretKeyV) (t : Transcript)
    (RBytes pkBytes : List ℕ) (k : SecretKeyV) : List ℕ :=
  let e := T.challenge_scalar (challenge_transcript_multi t pkBytes RBytes) cLabel
  let num1 := toLe 32 e
  let num2 := (toLe 32 secret.key ++ secret.nonce).take 32
  let num3 := (toLe 32 k.key ++ k.nonce).take 32
  let n1 := leVal num1 % L
  let n2 := leVal num2 % L
  let n3 := leVal num3 % L
  let s := (n1 * n2 % L + n3) % L
  RBytes ++ toLe 32 s

/-- The `multi_sign` entry point: decode the secret key, the local nonce
scalar (as a 64-byte secret key), the public key and the aggregated point
`R`, then run `inner_raw_sign` under the fixed signing context bound to the
message (source lines 310-338). -/
def multi_sign {α : Type} (E : CurveEngine α) (T : TranscriptEngine)
    (keypair : List ℕ × List ℕ) (message RCompressed k : List ℕ) :
    Option (List ℕ) :=
  match secretKey_from_bytes keypair.2 with
  | none => none
  | some secret =>
    match secretKey_from_bytes k with
    | none => none
    | some kScalar =>
      match E.decode_point keypair.1 with
      | none => none
      | some _ =>
        match E.decode_point RCompressed with
        | none => none
        | some _ =>
          some (inner_raw_sign T secret (context_bytes SIGNING_CTX message)
            RCompressed keypair.1 kScalar)

/-! ### HD derivation -/

/-- Modelled from the spec: the external derivation transcript engine.
`derive_scalar_cc chain_code pk_bytes id` is the soft-derivation transcript
yielding the child scalar offset and the child chain code;
`hard_derive_mini sk_bytes chain_code id` rehashes the secret material into a
fresh mini-secret and chain code; `expand mini` is the Ed25519-style key
expansion into a scalar/nonce pair. -/
structure DeriveEngine where
  derive_scalar_cc : List ℕ → List ℕ → List ℕ → ℕ × List ℕ
  hard_derive_mini : List ℕ → List ℕ → List ℕ → List ℕ × List ℕ
  expand : List ℕ → ℕ × List ℕ

/-- The `derive_pubkey` entry point: decode the parent public key, run the
soft-derivation transcript, and return the child chain code together with
`parent + offset·B` (source lines 191-198; the derivation core is modelled
from the spec). -/
def derive_pubkey {α : Type} (E : CurveEngine α) (D : DeriveEngine)
    (extendedPubkey : List ℕ × List ℕ) (id : List ℕ) :
    Option (List ℕ × List ℕ) :=
  match E.decode_point extendedPubkey.2 with
  | none => none
  | some p =>
    let res := D.derive_scalar_cc extendedPubkey.1 extendedPubkey.2 id
    some (res.2, E.encode_point (E.point_add p (E.scalar_mul_base res.1)))

/-- The `derive_keypair` entry point: decode the parent public key, then the
parent secret key, run the soft-derivation transcript and return the child
chain code, `parent + offset·B`, and the child secret key whose scalar is
`parent_scalar + offset mod L` and whose nonce is fresh external randomness
(source lines 216-226; the derivation core is modelled from the spec). -/
def derive_keypair {α : Type} (E : CurveEngine α) (D : DeriveEngine)
    (freshNonce : List ℕ) (extendedKeypair : List ℕ × List ℕ × List ℕ)
    (id : List ℕ) : Option (List ℕ × List ℕ × List ℕ) :=
  match E.decode_point extendedKeypair.2.1 with
  | none => none
  | some p =>
    match secretKey_from_bytes extendedKeypair.2.2 with
    | none => none
    | some sk =>
      let res := D.derive_scalar_cc extendedKeypair.1 extendedKeypair.2.1 id
      some (res.2, E.encode_point (E.point_add p (E.scalar_mul_base res.1)),
        toLe 32 ((sk.key + res.1) % L) ++ freshNonce)

/-- The `hard_derive_keypair` entry point: decode only the parent secret key
(the public-key component is never decoded), rehash into a fresh mini-secret
and chain code, and expand it into the child keypair (source lines 248-256;
the rehash and expansion are modelled from the spec). -/
def hard_derive_keypair {α : Type} (E : CurveEngine α) (D : DeriveEngine)
    (extendedKeypair : List ℕ × List ℕ × List ℕ) (id : List ℕ) :
    Option (List ℕ × List ℕ × List ℕ) :=
  match secretKey_from_bytes extendedKeypair.2.2 with
  | none => none
  | some _ =>
    let res := D.hard_derive_mini extendedKeypair.2.2 extendedKeypair.1 id
    let ex := D.expand res.1
    some (res.2, E.encode_point (E.scalar_mul_base ex.1), toLe 32 ex.1 ++ ex.2)

/-! ### Concrete engine instances

A concrete lawful instantiation of the external engines over the cyclic
group of order `L`, used to evaluate the theorems on explicit inputs. -/

/-- Concrete curve engine: the additive cyclic group of order `L`, with the
base point `1`, canonical 32-byte little-endian encodings, and decode
rejecting non-canonical values. -/
def finE : CurveEngine (Fin L) where
  decode_point bs :=
    if h : bs.length = 32 ∧ isBytes bs ∧ leVal bs < L then some ⟨leVal bs, h.2.2⟩ else none
  encode_point p := toLe 32 p.val
  point_eqb p q := decide (p = q)
  point_add p q := ⟨(p.val + q.val) % L, Nat.mod_lt _ (by norm_num [L])⟩
  scalar_mul_base a := ⟨a % L, Nat.mod_lt _ (by norm_num [L])⟩
  scalar_mul_point a p := ⟨a * p.val % L, Nat.mod_lt _ (by norm_num [L])⟩

/-- Concrete byte-list hash used by the concrete transcript engine. -/
def hashBytes (bs : List ℕ) : ℕ :=
  bs.foldl (fun a b => a * 257 + b + 1) 3

/-- Concrete hash of one transcript operation. -/
def hashOp : TranscriptOp → ℕ
  | TranscriptOp.protoName lbl => 5 + 9 * hashBytes lbl
  | TranscriptOp.commitBytes lbl d => 6 + 9 * (hashBytes lbl * 1000000007 + hashBytes d)
  | TranscriptOp.commitPoint lbl d => 7 + 9 * (hashBytes lbl * 1000000007 + hashBytes d)

/-- Concrete hash of a whole transcript together with a final label. -/
def hashTranscript (t : Transcript) (lbl : List ℕ) : ℕ :=
  (t.foldl (fun a op => a * 1000003 + hashOp op) 11) * 65537 + hashBytes lbl

/-- Concrete transcript engine: challenge and witness scalars are hashes of
the operation log, reduced modulo `L`. -/
def finT : TranscriptEngine where
  challenge_scalar t lbl := hashTranscript t lbl % L
  witness_scalar t lbl seed := (hashTranscript t lbl * 2654435761 + hashBytes seed) % L

/-- Concrete derivation engine built from the concrete hashes. -/
def finD : DeriveEngine where
  derive_scalar_cc cc pk id :=
    (hashTranscript [TranscriptOp.commitBytes cc pk] id % L,
      toLe 32 (hashTranscript [TranscriptOp.commitBytes pk cc] id % L))
  hard_derive_mini sk cc id :=
    (toLe 32 (hashTranscript [TranscriptOp.commitBytes sk cc] id % L),
      toLe 32 (hashTranscript [TranscriptOp.commitBytes cc sk] id % L))
  expand mini :=
    (hashBytes mini % L, toLe 32 ((hashBytes mini + 1) % L))

/-! ### Concrete test data -/

/-- A 32-byte zero block, used as an opaque nonce in concrete inputs. -/
def zeros32 : List ℕ := List.replicate 32 0

/-- Concrete curve point of the cyclic-group engine with discrete log `n`. -/
def wpt (n : ℕ) : Fin L := ⟨n % L, Nat.mod_lt _ (by norm_num [L])⟩

/-- Concrete compressed public-point bytes with discrete log `n`. -/
def pkOf (n : ℕ) : List ℕ := toLe 32 n

/-- Concrete 64-byte secret key with scalar `n` and zero nonce. -/
def skOf (n : ℕ) : List ℕ := toLe 32 n ++ zeros32

/-- Concrete aggregated commitment bytes for the joint-verification
counterexample: `R = R1 + R2` with nonce scalars 5 and 7. -/
def c3RB : List ℕ := toLe 32 12

/-- Concrete joint public key bytes: sum of the public points of scalars 2
and 3. -/
def c3PjB : List ℕ := toLe 32 5

/-- Party 1 partial signature when it binds its own public key (scalar 2,
nonce scalar 5), as the claim states. -/
def c3out1 : List ℕ := (multi_sign finE finT (pkOf 2, skOf 2) [] c3RB (skOf 5)).getD []

/-- Party 2 partial signature when it binds its own public key (scalar 3,
nonce scalar 7), as the claim states. -/
def c3out2 : List ℕ := (multi_sign finE finT (pkOf 3, skOf 3) [] c3RB (skOf 7)).getD []

/-- The combined signature `(R, s1 + s2 mod L)` of the two partial
signatures above. -/
def c3combined : List ℕ :=
  c3RB ++ toLe 32 ((leVal (c3out1.drop 32) + leVal (c3out2.drop 32)) % L)

/-! # Theorems -/

/-! ### Numeric and byte-level lemmas -/

theorem L_pos : 0 < L := by norm_num [L]

theorem L_lt_pow : L < 256 ^ 32 := by norm_num [L]

theorem L_lt_two_pow_253 : L < 2 ^ 253 := by norm_num [L]

theorem toLe_length (n v : ℕ) : (toLe n v).length = n := by
  induction n generalizing v with
  | zero => rfl
  | succ n ih => simp [toLe, ih]

theorem leVal_toLe (n v : ℕ) : leVal (toLe n v) = v % 256 ^ n := by
  induction n generalizing v with
  | zero => simp [toLe, leVal, Nat.mod_one]
  | succ n ih =>
    rw [toLe, leVal, ih, pow_succ, mul_comm (256 ^ n) 256, Nat.mod_mul]

theorem leVal_toLe_of_lt {n v : ℕ} (h : v < 256 ^ n) : leVal (toLe n v) = v := by
  rw [leVal_toLe, Nat.mod_eq_of_lt h]

theorem toLe_isBytes (n v : ℕ) : isBytes (toLe n v) := by
  induction n generalizing v with
  | zero => intro b hb; simp [toLe] at hb
  | succ n ih =>
    intro b hb
    rw [toLe] at hb
    rcases List.mem_cons.mp hb with h | h
    · subst h; exact Nat.mod_lt _ (by norm_num)
    · exact ih (v / 256) b h

theorem toLe_leVal (bs : List ℕ) (h : isBytes bs) : toLe bs.length (leVal bs) = bs := by
  induction bs with
  | nil => rfl
  | cons b bs ih =>
    have hb : b < 256 := h b (List.mem_cons_self b bs)
    have hbs : isBytes bs := fun x hx => h x (List.mem_cons_of_mem b hx)
    rw [List.length_cons, toLe, leVal]
    have h1 : (b + 256 * leVal bs) % 256 = b := by
      rw [Nat.add_mul_mod_self_left, Nat.mod_eq_of_lt hb]
    have h2 : (b + 256 * leVal bs) / 256 = leVal bs := by
      rw [Nat.add_mul_div_left _ _ (by norm_num : 0 < 256),
        Nat.div_eq_of_lt hb, Nat.zero_add]
    rw [h1, h2, ih hbs]

theorem toLe_getD (n v i : ℕ) (h : i < n) :
    (toLe n v).getD i 0 = v / 256 ^ i % 256 := by
  induction n generalizing v i with
  | zero => omega
  | succ n ih =>
    cases i with
    | zero => simp [toLe]
    | succ i =>
      rw [toLe]
      have : (v % 256 :: toLe n (v / 256)).getD (i + 1) 0 = (toLe n (v / 256)).getD i 0 := rfl
      rw [this, ih (v / 256) i (by omega), Nat.div_div_eq_div_mul, pow_succ,
        mul_comm (256 ^ i) 256]

theorem take32_append {l rest : List ℕ} (h : l.length = 32) :
    (l ++ rest).take 32 = l := by
  have := List.take_left l rest
  rwa [h] at this

theorem drop32_append {l rest : List ℕ} (h : l.length = 32) :
    (l ++ rest).drop 32 = rest := by
  have := List.drop_left l rest
  rwa [h] at this

/-! ### Laws of the concrete engines -/

theorem finE_decode_pos (bs : List ℕ) (h : bs.length = 32 ∧ isBytes bs ∧ leVal bs < L) :
    finE.decode_point bs = some ⟨leVal bs, h.2.2⟩ := dif_pos h

theorem finE_decode_neg (bs : List ℕ) (h : ¬(bs.length = 32 ∧ isBytes bs ∧ leVal bs < L)) :
    finE.decode_point bs = none := dif_neg h

theorem finE_lawful : finE.Lawful where
  decode_encode p := by
    have hlt : p.val < 256 ^ 32 := lt_trans p.isLt L_lt_pow
    have h : (toLe 32 p.val).length = 32 ∧ isBytes (toLe 32 p.val) ∧ leVal (toLe 32 p.val) < L := by
      refine ⟨toLe_length _ _, toLe_isBytes _ _, ?_⟩
      rw [leVal_toLe_of_lt hlt]; exact p.isLt
    exact (finE_decode_pos _ h).trans (congrArg some (Fin.ext (leVal_toLe_of_lt hlt)))
  encode_decode bs p hp := by
    by_cases h : bs.length = 32 ∧ isBytes bs ∧ leVal bs < L
    · rw [finE_decode_pos _ h] at hp
      cases hp
      show toLe 32 (leVal bs) = bs
      have := toLe_leVal bs h.2.1
      rw [h.1] at this
      exact this
    · rw [finE_decode_neg _ h] at hp
      cases hp
  encode_length p := toLe_length _ _
  encode_isBytes p := toLe_isBytes _ _
  point_eqb_iff p q := by simp [finE]
  point_add_comm p q := by simp [finE, Nat.add_comm]
  point_add_assoc p q r := by
    simp only [finE]
    apply Fin.ext
    simp only
    rw [Nat.mod_add_mod, Nat.add_mod_mod, Nat.add_assoc]
  smb_add a b := by
    simp only [finE]
    apply Fin.ext
    simp only
    rw [Nat.add_mod]
  smb_mod a := by
    simp only [finE]
    apply Fin.ext
    simp only
    rw [Nat.mod_mod_of_dvd _ (dvd_refl L)]
  spt_base a b := by
    simp only [finE]
    apply Fin.ext
    simp only
    rw [Nat.mul_mod, Nat.mod_mod_of_dvd _ (dvd_refl L), ← Nat.mul_mod]
  spt_mod a p := by
    simp only [finE]
    apply Fin.ext
    simp only
    rw [Nat.mul_mod, Nat.mod_mod_of_dvd _ (dvd_refl L), ← Nat.mul_mod]

theorem finT_lawful : finT.Lawful where
  challenge_lt _ _ := Nat.mod_lt _ L_pos
  witness_lt _ _ _ := Nat.mod_lt _ L_pos

/-! ### Unfolding lemmas for the core operations -/

theorem secretKey_from_bytes_eq {bs : List ℕ} {sk : SecretKeyV}
    (h : secretKey_from_bytes bs = some sk) :
    sk.key = leVal (bs.take 32) ∧ sk.key < L ∧ bs.length = 64 ∧ isBytes bs := by
  unfold secretKey_from_bytes at h
  split_ifs at h with hc
  cases h
  exact ⟨rfl, hc.2.2, hc.1, hc.2.1⟩

theorem take32_toLe_append (v : ℕ) (rest : List ℕ) :
    (toLe 32 v ++ rest).take 32 = toLe 32 v :=
  take32_append (toLe_length 32 v)

theorem inner_raw_sign_eq (T : TranscriptEngine) (hT : T.Lawful) (secret k : SecretKeyV)
    (hsec : secret.key < L) (hk : k.key < L) (t : Transcript) (RBytes pkBytes : List ℕ) :
    inner_raw_sign T secret t RBytes pkBytes k
      = RBytes ++ toLe 32
          ((T.challenge_scalar (challenge_transcript_multi t pkBytes RBytes) cLabel
            * secret.key + k.key) % L) := by
  have he := hT.challenge_lt (challenge_transcript_multi t pkBytes RBytes) cLabel
  unfold inner_raw_sign
  simp only [take32_toLe_append]
  rw [leVal_toLe_of_lt (lt_trans he L_lt_pow),
    leVal_toLe_of_lt (lt_trans hsec L_lt_pow),
    leVal_toLe_of_lt (lt_trans hk L_lt_pow),
    Nat.mod_eq_of_lt he, Nat.mod_eq_of_lt hsec, Nat.mod_eq_of_lt hk,
    Nat.mod_add_mod]

theorem multi_sign_eq {α : Type} (E : CurveEngine α) (T : TranscriptEngine)
    {pkB skB msg RB kB : List ℕ} {secret kk : SecretKeyV} {P Rp : α}
    (hsk : secretKey_from_bytes skB = some secret)
    (hk : secretKey_from_bytes kB = some kk)
    (hpk : E.decode_point pkB = some P)
    (hR : E.decode_point RB = some Rp) :
    multi_sign E T (pkB, skB) msg RB kB
      = some (inner_raw_sign T secret (context_bytes SIGNING_CTX msg) RB pkB kk) := by
  unfold multi_sign
  rw [hsk, hk, hpk, hR]

theorem sign_eq {α : Type} (E : CurveEngine α) (T : TranscriptEngine)
    {pkB skB : List ℕ} (msg : List ℕ) {secret : SecretKeyV} {P : α}
    (hsk : secretKey_from_bytes skB = some secret)
    (hpk : E.decode_point pkB = some P) :
    sign E T (pkB, skB) msg
      = some (sr_sign E T secret (context_bytes SIGNING_CTX msg) pkB) := by
  unfold sign
  rw [hsk, hpk]

theorem signature_from_bytes_append {α : Type} (E : CurveEngine α)
    {Rb : List ℕ} {s : ℕ} {R : α}
    (hlen : Rb.length = 32) (hb : isBytes Rb) (hs : s < L)
    (hdec : E.decode_point Rb = some R) :
    signature_from_bytes E (Rb ++ toLe 32 s) = some (R, Rb, s) := by
  have hTake : (Rb ++ toLe 32 s).take 32 = Rb := take32_append hlen
  have hDrop : (Rb ++ toLe 32 s).drop 32 = toLe 32 s := drop32_append hlen
  have hle : leVal (toLe 32 s) = s := leVal_toLe_of_lt (lt_trans hs L_lt_pow)
  have hcond : (Rb ++ toLe 32 s).length = 64 ∧ isBytes (Rb ++ toLe 32 s)
      ∧ leVal ((Rb ++ toLe 32 s).drop 32) < L := by
    refine ⟨?_, ?_, ?_⟩
    · rw [List.length_append, hlen, toLe_length]
    · intro b hb2
      rcases List.mem_append.mp hb2 with h | h
      exacts [hb b h, toLe_isBytes _ _ b h]
    · rw [hDrop, hle]; exact hs
  unfold signature_from_bytes
  rw [if_pos hcond, hTake, hdec, hDrop, hle]

theorem verify_eq {α : Type} (E : CurveEngine α) (T : TranscriptEngine)
    {sigB msg pkB Rb : List ℕ} {s : ℕ} {R pk : α}
    (hsig : signature_from_bytes E sigB = some (R, Rb, s))
    (hpk : E.decode_point pkB = some pk) :
    verify E T sigB msg pkB
      = some (E.point_eqb (E.scalar_mul_base s)
          (E.point_add R (E.scalar_mul_point
            (T.challenge_scalar (challenge_transcript_verify
              (context_bytes SIGNING_CTX msg) pkB Rb) cLabel) pk))) := by
  unfold verify
  rw [hsig, hpk]

theorem sum_public_points_eq {α : Type} (E : CurveEngine α)
    {aB bB : List ℕ} {A B : α}
    (ha : E.decode_point aB = some A) (hb : E.decode_point bB = some B) :
    sum_public_points E aB bB = some (E.encode_point (E.point_add A B)) := by
  unfold sum_public_points
  rw [ha, hb]

theorem smb_congr {α : Type} {E : CurveEngine α} (hE : E.Lawful) {a b : ℕ}
    (h : a % L = b % L) : E.scalar_mul_base a = E.scalar_mul_base b := by
  rw [← hE.smb_mod a, ← hE.smb_mod b, h]

/-! ### The claims -/

/-- Claim C1: for every public key, aggregated point R and message, the
challenge transcript built by the multi-sign path (`inner_raw_sign`) is
byte-identical to the challenge transcripts of single-party sign and of
verify — protocol label "Schnorr-sig" after the fixed "substrate" signing
context bound to the message, then the public key under "sign:pk", then R
under "sign:R" — so the challenge scalar drawn under "sign:c" agrees between
the single-party and multi-party paths for every transcript engine. -/
theorem claim_C1_transcript_agreement (T : TranscriptEngine) (msg pkB RB : List ℕ) :
    challenge_transcript_multi (context_bytes SIGNING_CTX msg) pkB RB
        = challenge_transcript_sign (context_bytes SIGNING_CTX msg) pkB RB
    ∧ challenge_transcript_multi (context_bytes SIGNING_CTX msg) pkB RB
        = challenge_transcript_verify (context_bytes SIGNING_CTX msg) pkB RB
    ∧ challenge_transcript_multi (context_bytes SIGNING_CTX msg) pkB RB
        = [TranscriptOp.protoName ctxProtoLabel, TranscriptOp.commitBytes [] SIGNING_CTX,
           TranscriptOp.commitBytes signBytesLabel msg, TranscriptOp.protoName protoLabel,
           TranscriptOp.commitPoint pkLabel pkB, TranscriptOp.commitPoint RLabel RB]
    ∧ T.challenge_scalar
          (challenge_transcript_multi (context_bytes SIGNING_CTX msg) pkB RB) cLabel
        = T.challenge_scalar
          (challenge_transcript_sign (context_bytes SIGNING_CTX msg) pkB RB) cLabel
    ∧ T.challenge_scalar
          (challenge_transcript_multi (context_bytes SIGNING_CTX msg) pkB RB) cLabel
        = T.challenge_scalar
          (challenge_transcript_verify (context_bytes SIGNING_CTX msg) pkB RB) cLabel :=
  ⟨rfl, rfl, rfl, rfl, rfl⟩

/-- Claim C6 counterexample: an extended keypair whose public-key component
fails to decode (32 bytes of value 255, a non-canonical encoding) but whose
secret-key component is valid is accepted by `hard_derive_keypair`, which
never decodes the public-key component — contradicting the claim that hard
derivation fails with a decode error on an invalid public key. -/
theorem claim_C6_counterexample :
    finE.decode_point (List.replicate 32 255) = none
    ∧ hard_derive_keypair finE finD (zeros32, List.replicate 32 255, skOf 1) [1, 2, 3, 4]
        ≠ none := by
  constructor
  · decide
  · decide

/-- Claim C6 (amended): soft derivation (`derive_pubkey`, `derive_keypair`)
fails with a decode error exactly when the supplied public-key (resp.
public-key or secret-key) component fails to decode, while
`hard_derive_keypair` fails exactly when the secret-key component fails to
decode: it never decodes the public-key component and succeeds even when
that component is not a valid curve point. -/
theorem claim_C6_derivation_error_handling {α : Type} (E : CurveEngine α)
    (D : DeriveEngine) (cc pkB skB id freshNonce : List ℕ) :
    (derive_pubkey E D (cc, pkB) id = none ↔ E.decode_point pkB = none)
    ∧ (derive_keypair E D freshNonce (cc, pkB, skB) id = none
        ↔ (E.decode_point pkB = none ∨ secretKey_from_bytes skB = none))
    ∧ (hard_derive_keypair E D (cc, pkB, skB) id = none
        ↔ secretKey_from_bytes skB = none) := by
  refine ⟨?_, ?_, ?_⟩
  · unfold derive_pubkey
    cases E.decode_point pkB <;> simp
  · unfold derive_keypair
    cases E.decode_point pkB <;> cases secretKey_from_bytes skB <;> simp
  · unfold hard_derive_keypair
    cases secretKey_from_bytes skB <;> simp

/-- Claim C7: `verify` fails with a decode error exactly when the signature
or the public-key encoding is malformed, and otherwise returns the boolean
outcome of the Schnorr verification equation — in particular a structurally
well-formed but cryptographically wrong signature yields `false`, never an
error. -/
theorem claim_C7_verify_error_handling {α : Type} (E : CurveEngine α)
    (T : TranscriptEngine) (sigB msg pkB : List ℕ) :
    (verify E T sigB msg pkB = none
      ↔ (signature_from_bytes E sigB = none ∨ E.decode_point pkB = none))
    ∧ (∀ (R pk : α) (Rb : List ℕ) (s : ℕ),
        signature_from_bytes E sigB = some (R, Rb, s) →
        E.decode_point pkB = some pk →
        verify E T sigB msg pkB
          = some (E.point_eqb (E.scalar_mul_base s)
              (E.point_add R (E.scalar_mul_point
                (T.challenge_scalar (challenge_transcript_verify
                  (context_bytes SIGNING_CTX msg) pkB Rb) cLabel) pk)))) := by
  constructor
  · unfold verify
    rcases hs : signature_from_bytes E sigB with _ | ⟨R, Rb, s⟩
    · simp
    · cases E.decode_point pkB <;> simp
  · intro R pk Rb s hsig hpk
    exact verify_eq E T hsig hpk

/-- Claim C7 witness: on a concrete structurally well-formed signature the
decode-success branch applies and `verify` returns the boolean verdict of
the Schnorr equation, not an error. -/
theorem claim_C7_witness :
    verify finE finT (pkOf 9 ++ toLe 32 5) [1] (pkOf 2)
      = some (finE.point_eqb (finE.scalar_mul_base 5)
          (finE.point_add (wpt 9) (finE.scalar_mul_point
            (finT.challenge_scalar (challenge_transcript_verify
              (context_bytes SIGNING_CTX [1]) (pkOf 2) (pkOf 9)) cLabel) (wpt 2)))) :=
  (claim_C7_verify_error_handling finE finT (pkOf 9 ++ toLe 32 5) [1] (pkOf 2)).2
    (wpt 9) (wpt 2) (pkOf 9) 5 (by decide) (by decide)

/-- Claim C9: point aggregation is commutative and associative on inputs
that decode to valid curve points. -/
theorem claim_C9_sum_comm_assoc {α : Type} (E : CurveEngine α) (hE : E.Lawful)
    (aB bB cB : List ℕ) (A B C : α)
    (ha : E.decode_point aB = some A) (hb : E.decode_point bB = some B)
    (hc : E.decode_point cB = some C) :
    sum_public_points E aB bB = sum_public_points E bB aB
    ∧ (sum_public_points E aB bB).bind (fun ab => sum_public_points E ab cB)
        = (sum_public_points E bB cB).bind (fun bc => sum_public_points E aB bc) := by
  constructor
  · rw [sum_public_points_eq E ha hb, sum_public_points_eq E hb ha, hE.point_add_comm]
  · rw [sum_public_points_eq E ha hb, sum_public_points_eq E hb hc,
      Option.some_bind, Option.some_bind,
      sum_public_points_eq E (hE.decode_encode (E.point_add A B)) hc,
      sum_public_points_eq E ha (hE.decode_encode (E.point_add B C)),
      hE.point_add_assoc]

/-- Claim C9 witness: aggregation of three concrete valid points. -/
theorem claim_C9_witness :
    sum_public_points finE (pkOf 2) (pkOf 3) = sum_public_points finE (pkOf 3) (pkOf 2)
    ∧ (sum_public_points finE (pkOf 2) (pkOf 3)).bind
          (fun ab => sum_public_points finE ab (pkOf 11))
        = (sum_public_points finE (pkOf 3) (pkOf 11)).bind
          (fun bc => sum_public_points finE (pkOf 2) bc) :=
  claim_C9_sum_comm_assoc finE finE_lawful (pkOf 2) (pkOf 3) (pkOf 11)
    (wpt 2) (wpt 3) (wpt 11) (by decide) (by decide) (by decide)

/-- Claim C3 counterexample: with two valid keypairs of scalars 2 and 3,
nonce scalars 5 and 7, `R = sum_public_points(R1, R2)` and
`Pjoint = sum_public_points(pk1, pk2)`, the partial signatures produced by
`multi_sign` called with each party's OWN keypair — as the claim states —
combine to a signature that verify rejects under `Pjoint`: each party's
challenge binds its own public key while verify binds `Pjoint`, so the
challenges disagree. -/
theorem claim_C3_counterexample :
    finE.decode_point (pkOf 2) = some (finE.scalar_mul_base 2)
    ∧ finE.decode_point (pkOf 3) = some (finE.scalar_mul_base 3)
    ∧ sum_public_points finE (finE.encode_point (finE.scalar_mul_base 5))
        (finE.encode_point (finE.scalar_mul_base 7)) = some c3RB
    ∧ sum_public_points finE (pkOf 2) (pkOf 3) = some c3PjB
    ∧ multi_sign finE finT (pkOf 2, skOf 2) [] c3RB (skOf 5) = some c3out1
    ∧ multi_sign finE finT (pkOf 3, skOf 3) [] c3RB (skOf 7) = some c3out2
    ∧ verify finE finT c3combined [] c3PjB = some false := by
  refine ⟨?_, ?_, ?_, ?_, ?_, ?_, ?_⟩ <;> decide

/-- Claim C3 (amended): the joint verification holds when each party calls
`multi_sign` with the JOINT public key `Pjoint` as the public component of
its keypair — the usage the source documents as passing the shared public
bytes — together with its own secret key: with `R1 = k1·B`, `R2 = k2·B`,
`R = sum_public_points(R1, R2)` and `Pjoint = sum_public_points(pk1, pk2)`
for valid keypairs, the combined signature `(R, s1 + s2 mod L)` verifies as
true under `Pjoint`. -/
theorem claim_C3_joint_verification {α : Type} (E : CurveEngine α) (hE : E.Lawful)
    (T : TranscriptEngine) (hT : T.Lawful)
    (msg pk1B pk2B sk1B sk2B k1B k2B RB PjB : List ℕ)
    (sk1 sk2 kk1 kk2 : SecretKeyV)
    (hsk1 : secretKey_from_bytes sk1B = some sk1)
    (hsk2 : secretKey_from_bytes sk2B = some sk2)
    (hk1 : secretKey_from_bytes k1B = some kk1)
    (hk2 : secretKey_from_bytes k2B = some kk2)
    (hpk1 : pk1B = E.encode_point (E.scalar_mul_base sk1.key))
    (hpk2 : pk2B = E.encode_point (E.scalar_mul_base sk2.key))
    (hR : sum_public_points E (E.encode_point (E.scalar_mul_base kk1.key))
            (E.encode_point (E.scalar_mul_base kk2.key)) = some RB)
    (hPj : sum_public_points E pk1B pk2B = some PjB) :
    ∃ out1 out2,
      multi_sign E T (PjB, sk1B) msg RB k1B = some out1
      ∧ multi_sign E T (PjB, sk2B) msg RB k2B = some out2
      ∧ verify E T (RB ++ toLe 32 ((leVal (out1.drop 32) + leVal (out2.drop 32)) % L))
          msg PjB = some true := by
  set Rpt := E.point_add (E.scalar_mul_base kk1.key) (E.scalar_mul_base kk2.key) with hRpt
  set Ppt := E.point_add (E.scalar_mul_base sk1.key) (E.scalar_mul_base sk2.key) with hPpt
  have hRB : RB = E.encode_point Rpt := by
    rw [sum_public_points_eq E (hE.decode_encode _) (hE.decode_encode _)] at hR
    exact (Option.some.inj hR).symm
  have hPjB : PjB = E.encode_point Ppt := by
    rw [hpk1, hpk2, sum_public_points_eq E (hE.decode_encode _) (hE.decode_encode _)] at hPj
    exact (Option.some.inj hPj).symm
  have hdecR : E.decode_point RB = some Rpt := by rw [hRB]; exact hE.decode_encode _
  have hdecPj : E.decode_point PjB = some Ppt := by rw [hPjB]; exact hE.decode_encode _
  have hRBlen : RB.length = 32 := by rw [hRB]; exact hE.encode_length _
  set t := context_bytes SIGNING_CTX msg with htdef
  set e := T.challenge_scalar (challenge_transcript_multi t PjB RB) cLabel with hedef
  set s1 := (e * sk1.key + kk1.key) % L with hs1
  set s2 := (e * sk2.key + kk2.key) % L with hs2
  have hout1 : multi_sign E T (PjB, sk1B) msg RB k1B = some (RB ++ toLe 32 s1) := by
    rw [multi_sign_eq E T hsk1 hk1 hdecPj hdecR,
      inner_raw_sign_eq T hT sk1 kk1 (secretKey_from_bytes_eq hsk1).2.1
        (secretKey_from_bytes_eq hk1).2.1 t RB PjB]
  have hout2 : multi_sign E T (PjB, sk2B) msg RB k2B = some (RB ++ toLe 32 s2) := by
    rw [multi_sign_eq E T hsk2 hk2 hdecPj hdecR,
      inner_raw_sign_eq T hT sk2 kk2 (secretKey_from_bytes_eq hsk2).2.1
        (secretKey_from_bytes_eq hk2).2.1 t RB PjB]
  refine ⟨RB ++ toLe 32 s1, RB ++ toLe 32 s2, hout1, hout2, ?_⟩
  have hdrop1 : (RB ++ toLe 32 s1).drop 32 = toLe 32 s1 := drop32_append hRBlen
  have hdrop2 : (RB ++ toLe 32 s2).drop 32 = toLe 32 s2 := drop32_append hRBlen
  have hlv1 : leVal (toLe 32 s1) = s1 :=
    leVal_toLe_of_lt (lt_trans (Nat.mod_lt _ L_pos) L_lt_pow)
  have hlv2 : leVal (toLe 32 s2) = s2 :=
    leVal_toLe_of_lt (lt_trans (Nat.mod_lt _ L_pos) L_lt_pow)
  rw [hdrop1, hdrop2, hlv1, hlv2]
  set S := (s1 + s2) % L with hS
  have hsig : signature_from_bytes E (RB ++ toLe 32 S) = some (Rpt, RB, S) :=
    signature_from_bytes_append E (by rw [hRB]; exact hE.encode_length _)
      (by rw [hRB]; exact hE.encode_isBytes _) (Nat.mod_lt _ L_pos) hdecR
  rw [verify_eq E T hsig hdecPj]
  have htr : challenge_transcript_verify t PjB RB = challenge_transcript_multi t PjB RB := rfl
  rw [htr, ← hedef]
  have hmain : E.scalar_mul_base S = E.point_add Rpt (E.scalar_mul_point e Ppt) := by
    have hcong : S % L = (e * (sk1.key + sk2.key) + (kk1.key + kk2.key)) % L := by
      have h1 : s1 % L = (e * sk1.key + kk1.key) % L := by
        rw [hs1, Nat.mod_mod_of_dvd _ (dvd_refl L)]
      have h2 : s2 % L = (e * sk2.key + kk2.key) % L := by
        rw [hs2, Nat.mod_mod_of_dvd _ (dvd_refl L)]
      calc S % L = (s1 + s2) % L := by rw [hS, Nat.mod_mod_of_dvd _ (dvd_refl L)]
        _ = (s1 % L + s2 % L) % L := by rw [Nat.add_mod]
        _ = ((e * sk1.key + kk1.key) % L + (e * sk2.key + kk2.key) % L) % L := by
              rw [h1, h2]
        _ = ((e * sk1.key + kk1.key) + (e * sk2.key + kk2.key)) % L := by
              rw [Nat.mod_add_mod, Nat.add_mod_mod]
        _ = (e * (sk1.key + sk2.key) + (kk1.key + kk2.key)) % L := by ring_nf
    calc E.scalar_mul_base S
        = E.scalar_mul_base (e * (sk1.key + sk2.key) + (kk1.key + kk2.key)) :=
          smb_congr hE hcong
      _ = E.point_add (E.scalar_mul_base (e * (sk1.key + sk2.key)))
            (E.scalar_mul_base (kk1.key + kk2.key)) := hE.smb_add _ _
      _ = E.point_add (E.scalar_mul_point e (E.scalar_mul_base (sk1.key + sk2.key)))
            (E.scalar_mul_base (kk1.key + kk2.key)) := by rw [hE.spt_base]
      _ = E.point_add (E.scalar_mul_point e Ppt) Rpt := by
            rw [hE.smb_add sk1.key sk2.key, hE.smb_add kk1.key kk2.key, ← hPpt, ← hRpt]
      _ = E.point_add Rpt (E.scalar_mul_point e Ppt) := hE.point_add_comm _ _
  rw [hmain, (hE.point_eqb_iff _ _).mpr rfl]

/-- Claim C3 witness: concrete two-party joint verification with the joint
public key bound by both parties. -/
theorem claim_C3_witness :
    ∃ out1 out2,
      multi_sign finE finT (c3PjB, skOf 2) [] c3RB (skOf 5) = some out1
      ∧ multi_sign finE finT (c3PjB, skOf 3) [] c3RB (skOf 7) = some out2
      ∧ verify finE finT
          (c3RB ++ toLe 32 ((leVal (out1.drop 32) + leVal (out2.drop 32)) % L))
          [] c3PjB = some true :=
  claim_C3_joint_verification finE finE_lawful finT finT_lawful [] (pkOf 2) (pkOf 3)
    (skOf 2) (skOf 3) (skOf 5) (skOf 7) c3RB c3PjB
    ⟨2, zeros32⟩ ⟨3, zeros32⟩ ⟨5, zeros32⟩ ⟨7, zeros32⟩
    (by decide) (by decide) (by decide) (by decide)
    (by decide) (by decide) (by decide) (by decide)

/-- Claim C2: on decodable inputs, `multi_sign` returns the 64-byte
signature whose first 32 bytes are the compressed encoding of the aggregated
point R and whose last 32 bytes encode `e * secret_scalar + k mod L`, with
`e` the challenge scalar of the transcript bound to the public key, R and
the message. -/
theorem claim_C2_multi_sign_output {α : Type} (E : CurveEngine α) (hE : E.Lawful)
    (T : TranscriptEngine) (hT : T.Lawful) (pkB skB msg RB kB : List ℕ)
    (secret kk : SecretKeyV) (P Rp : α)
    (hsk : secretKey_from_bytes skB = some secret)
    (hk : secretKey_from_bytes kB = some kk)
    (hpk : E.decode_point pkB = some P)
    (hR : E.decode_point RB = some Rp) :
    multi_sign E T (pkB, skB) msg RB kB
      = some (RB ++ toLe 32
          ((T.challenge_scalar (challenge_transcript_multi
              (context_bytes SIGNING_CTX msg) pkB RB) cLabel * secret.key + kk.key) % L))
    ∧ RB = E.encode_point Rp := by
  refine ⟨?_, (hE.encode_decode _ _ hR).symm⟩
  rw [multi_sign_eq E T hsk hk hpk hR,
    inner_raw_sign_eq T hT secret kk (secretKey_from_bytes_eq hsk).2.1
      (secretKey_from_bytes_eq hk).2.1 (context_bytes SIGNING_CTX msg) RB pkB]

/-- Claim C2 witness: concrete evaluation of `multi_sign` on decodable
inputs. -/
theorem claim_C2_witness :
    multi_sign finE finT (pkOf 2, skOf 2) [1] (pkOf 9) (skOf 4)
      = some (pkOf 9 ++ toLe 32
          ((finT.challenge_scalar (challenge_transcript_multi
              (context_bytes SIGNING_CTX [1]) (pkOf 2) (pkOf 9)) cLabel * 2 + 4) % L))
    ∧ pkOf 9 = finE.encode_point (wpt 9) :=
  claim_C2_multi_sign_output finE finE_lawful finT finT_lawful (pkOf 2) (skOf 2) [1]
    (pkOf 9) (skOf 4) ⟨2, zeros32⟩ ⟨4, zeros32⟩ (wpt 2) (wpt 9)
    (by decide) (by decide) (by decide) (by decide)

/-- Claim C4: for a valid keypair (decodable components, public key the
base-point image of the secret scalar), verify accepts the signature
produced by sign on any message. -/
theorem claim_C4_sign_verify_roundtrip {α : Type} (E : CurveEngine α) (hE : E.Lawful)
    (T : TranscriptEngine) (pkB skB msg : List ℕ) (secret : SecretKeyV) (P : α)
    (hsk : secretKey_from_bytes skB = some secret)
    (hpk : E.decode_point pkB = some P)
    (hval : P = E.scalar_mul_base secret.key) :
    ∃ sg, sign E T (pkB, skB) msg = some sg ∧ verify E T sg msg pkB = some true := by
  have hsign := sign_eq E T msg hsk hpk
  set t := context_bytes SIGNING_CTX msg with ht
  set r := T.witness_scalar (presign_transcript t pkB) signingLabel secret.nonce with hr
  set Rb := E.encode_point (E.scalar_mul_base r) with hRb
  set e := T.challenge_scalar (challenge_transcript_sign t pkB Rb) cLabel with he
  set s := (e * secret.key % L + r) % L with hs
  have hsr : sr_sign E T secret t pkB = Rb ++ toLe 32 s := rfl
  refine ⟨Rb ++ toLe 32 s, by rw [hsign, hsr], ?_⟩
  have hsig : signature_from_bytes E (Rb ++ toLe 32 s)
      = some (E.scalar_mul_base r, Rb, s) :=
    signature_from_bytes_append E (hE.encode_length _) (hE.encode_isBytes _)
      (Nat.mod_lt _ L_pos) (hE.decode_encode _)
  rw [verify_eq E T hsig hpk]
  have htr : challenge_transcript_verify t pkB Rb = challenge_transcript_sign t pkB Rb := rfl
  rw [htr, ← he]
  have hkey : E.scalar_mul_base s
      = E.point_add (E.scalar_mul_base r) (E.scalar_mul_point e P) := by
    rw [hval, hE.spt_base, hs, hE.smb_mod, hE.smb_add, hE.smb_mod, hE.point_add_comm]
  rw [hkey, (hE.point_eqb_iff _ _).mpr rfl]

/-- Claim C4 witness: concrete sign-then-verify round trip on a valid
keypair. -/
theorem claim_C4_witness :
    ∃ sg, sign finE finT (pkOf 7, skOf 7) [1, 2] = some sg
      ∧ verify finE finT sg [1, 2] (pkOf 7) = some true :=
  claim_C4_sign_verify_roundtrip finE finE_lawful finT (pkOf 7) (skOf 7) [1, 2]
    ⟨7, zeros32⟩ (wpt 7) (by decide) (by decide) (by decide)

/-- Claim C8: the nonce scalar drawn inside sign is a deterministic function
of the transcript (which binds the message) and of the secret key's nonce
component alone — two secret keys sharing a nonce draw the same `r` — and
consequently sign is deterministic: identical keypair bytes and message give
identical signatures. -/
theorem claim_C8_sign_deterministic {α : Type} (E : CurveEngine α)
    (T : TranscriptEngine) (kp1 kp2 : List ℕ × List ℕ) (msg1 msg2 : List ℕ)
    (sk1 sk2 : SecretKeyV) (t : Transcript) (pkB : List ℕ)
    (hkp : kp1 = kp2) (hmsg : msg1 = msg2) (hnonce : sk1.nonce = sk2.nonce) :
    sign E T kp1 msg1 = sign E T kp2 msg2
    ∧ T.witness_scalar (presign_transcript t pkB) signingLabel sk1.nonce
        = T.witness_scalar (presign_transcript t pkB) signingLabel sk2.nonce := by
  subst hkp
  subst hmsg
  rw [hnonce]
  exact ⟨rfl, rfl⟩

/-- Claim C8 witness: concrete instantiation of sign determinism. -/
theorem claim_C8_witness :
    sign finE finT (pkOf 7, skOf 7) [5] = sign finE finT (pkOf 7, skOf 7) [5]
    ∧ finT.witness_scalar (presign_transcript [] (pkOf 7)) signingLabel
          (SecretKeyV.mk 1 zeros32).nonce
        = finT.witness_scalar (presign_transcript [] (pkOf 7)) signingLabel
          (SecretKeyV.mk 2 zeros32).nonce :=
  claim_C8_sign_deterministic finE finT (pkOf 7, skOf 7) (pkOf 7, skOf 7) [5] [5]
    ⟨1, zeros32⟩ ⟨2, zeros32⟩ [] (pkOf 7) rfl rfl rfl

/-- Claim C5: on decodable components, the chain code and public key of
`derive_pubkey` on the extended public key agree with the corresponding
components of `derive_keypair` on the full extended keypair with the same
id. -/
theorem claim_C5_soft_derivation_consistency {α : Type} (E : CurveEngine α)
    (D : DeriveEngine) (cc pkB skB id freshNonce : List ℕ) (P : α) (sk : SecretKeyV)
    (hpk : E.decode_point pkB = some P)
    (hsk : secretKey_from_bytes skB = some sk) :
    Option.map (fun r => (r.1, r.2.1)) (derive_keypair E D freshNonce (cc, pkB, skB) id)
      = derive_pubkey E D (cc, pkB) id := by
  simp only [derive_keypair, derive_pubkey, hpk, hsk]
  rfl

/-- Claim C5 witness: concrete soft-derivation consistency. -/
theorem claim_C5_witness :
    Option.map (fun r => (r.1, r.2.1))
        (derive_keypair finE finD zeros32 (zeros32, pkOf 2, skOf 3) [9])
      = derive_pubkey finE finD (zeros32, pkOf 2) [9] :=
  claim_C5_soft_derivation_consistency finE finD zeros32 (pkOf 2) (skOf 3) [9] zeros32
    (wpt 2) ⟨3, zeros32⟩ (by decide) (by decide)

/-- Claim C10: every successful `multi_sign` output is `R ++ s` where `s` is
the canonical 32-byte little-endian encoding of a scalar fully reduced
modulo L; in particular byte 63 is below 128, so the most significant bit —
the marker bit of the library's standard signature serialization used by
sign — is never set in the s half. -/
theorem claim_C10_multi_sign_s_canonical {α : Type} (E : CurveEngine α) (hE : E.Lawful)
    (T : TranscriptEngine) (hT : T.Lawful) (pkB skB msg RB kB : List ℕ)
    (secret kk : SecretKeyV) (P Rp : α)
    (hsk : secretKey_from_bytes skB = some secret)
    (hk : secretKey_from_bytes kB = some kk)
    (hpk : E.decode_point pkB = some P)
    (hR : E.decode_point RB = some Rp) :
    ∃ out s, multi_sign E T (pkB, skB) msg RB kB = some out
      ∧ s < L ∧ out = RB ++ toLe 32 s ∧ out.drop 32 = toLe 32 s
      ∧ out.length = 64 ∧ out.getD 63 0 < 128 := by
  have hRB : RB = E.encode_point Rp := (hE.encode_decode _ _ hR).symm
  have hRBlen : RB.length = 32 := by rw [hRB]; exact hE.encode_length _
  set s := ((T.challenge_scalar (challenge_transcript_multi
      (context_bytes SIGNING_CTX msg) pkB RB) cLabel) * secret.key + kk.key) % L with hsdef
  have hsL : s < L := Nat.mod_lt _ L_pos
  refine ⟨RB ++ toLe 32 s, s, ?_, hsL, rfl, drop32_append hRBlen, ?_, ?_⟩
  · rw [multi_sign_eq E T hsk hk hpk hR,
      inner_raw_sign_eq T hT secret kk (secretKey_from_bytes_eq hsk).2.1
        (secretKey_from_bytes_eq hk).2.1 (context_bytes SIGNING_CTX msg) RB pkB]
  · rw [List.length_append, hRBlen, toLe_length]
  · have h1 : (RB ++ toLe 32 s).getD 63 0 = (toLe 32 s).getD 31 0 := by
      have := List.getD_append_right RB (toLe 32 s) 0 63 (by rw [hRBlen]; omega)
      rw [this, hRBlen]
    have h2 : (toLe 32 s).getD 31 0 = s / 256 ^ 31 % 256 := toLe_getD 32 s 31 (by omega)
    have h3 : s / 256 ^ 31 < 32 := by
      have hs253 : s < 2 ^ 253 := lt_trans hsL L_lt_two_pow_253
      have : (256 : ℕ) ^ 31 = 2 ^ 248 := by norm_num
      rw [this]
      exact Nat.div_lt_of_lt_mul (by calc s < 2 ^ 253 := hs253
                                       _ = 2 ^ 248 * 32 := by norm_num)
    have h4 : s / 256 ^ 31 % 256 ≤ s / 256 ^ 31 := Nat.mod_le _ _
    rw [h1, h2]
    omega

/-- Claim C10 witness: concrete reduced, unmarked s half of a `multi_sign`
output. -/
theorem claim_C10_witness :
    ∃ out s, multi_sign finE finT (pkOf 2, skOf 2) [1] (pkOf 9) (skOf 4) = some out
      ∧ s < L ∧ out = pkOf 9 ++ toLe 32 s ∧ out.drop 32 = toLe 32 s
      ∧ out.length = 64 ∧ out.getD 63 0 < 128 :=
  claim_C10_multi_sign_s_canonical finE finE_lawful finT finT_lawful (pkOf 2) (skOf 2)
    [1] (pkOf 9) (skOf 4) ⟨2, zeros32⟩ ⟨4, zeros32⟩ (wpt 2) (wpt 9)
    (by decide) (by decide) (by decide) (by decide)

end Sr25519
